import Mathlib

/-!
Verification of the topic-validation and retry/error-handling layer of the
`ai_agents_module1` repository, shallowly embedded in Lean.

Sources embedded:
  * `src/topic_validation.py` : `_validate_topic`, `MIN_TOPIC_LENGTH`,
    `MAX_TOPIC_LENGTH`, `INVALID_CHARS_PATTERN`, `SUSPICIOUS_PATTERNS`.
  * `src/exceptions.py`      : the exception class hierarchy.
  * `src/error_handling.py`  : `retry_on_error`, `handle_errors`.

Modelling conventions:
  * Python strings are `String` / `List Char`; `str.strip`, `str.split` and
    `' '.join` are modelled character-exactly over the ASCII whitespace set
    (the Unicode-only whitespace code points are outside the model).
  * The five regular expressions of the validator are compiled by hand into
    decidable matchers with exactly the semantics of `re.search` with
    `re.IGNORECASE` for the suspicious patterns; `IGNORECASE` is modelled by
    lower-casing the haystack and using lower-case literals, and the regex
    character classes are taken over their ASCII range.
  * Exceptions are values of a `PyException` structure carrying the class,
    the message and an optional `__cause__`; raising is `Except.error`.
  * `time.sleep` and logging are effects: the retry wrapper records the
    sequence of sleep durations instead of performing them, and the float
    delay arithmetic is modelled over `ℚ` (exact arithmetic, so
    `current_delay *= backoff` is exact multiplication).
  * A wrapped Python callable is modelled as `Nat → Except PyException α`:
    the value of `op n` is the outcome of its `n`-th invocation.
-/

deriving instance DecidableEq for Except

/-- ASCII whitespace, the characters `str.strip` / `str.split` and `\s`
remove for ASCII input (space, tab, newline, carriage return, vertical
tab, form feed). -/
def pyIsSpace (c : Char) : Bool :=
  c = ' ' || c = '\t' || c = '\n' || c = '\r' || c = '\x0b' || c = '\x0c'

/-- ASCII range of the regex class `\w`: letters, digits, underscore. -/
def isWordChar (c : Char) : Bool :=
  c.isAlphanum || c = '_'

/-- Left part of Python `str.strip()`. -/
def pyStripLeft (l : List Char) : List Char :=
  l.dropWhile pyIsSpace

/-- Right part of Python `str.strip()`. -/
def pyStripRight (l : List Char) : List Char :=
  (l.reverse.dropWhile pyIsSpace).reverse

/-- Python `str.strip()`: remove leading and trailing whitespace. -/
def pyStrip (l : List Char) : List Char :=
  pyStripLeft (pyStripRight l)

/-- Worker for Python `str.split()` (no separator argument): `acc` holds the
reversed characters of the word currently being read. -/
def splitAux : List Char → List Char → List (List Char)
  | [], acc => if acc.isEmpty then [] else [acc.reverse]
  | c :: rest, acc =>
    if pyIsSpace c then
      if acc.isEmpty then splitAux rest [] else acc.reverse :: splitAux rest []
    else
      splitAux rest (c :: acc)

/-- Python `str.split()`: the whitespace-separated words, no empties. -/
def pySplit (l : List Char) : List (List Char) :=
  splitAux l []

/-- Python `' '.join(...)` over character lists. -/
def spaceJoin : List (List Char) → List Char
  | [] => []
  | [w] => w
  | w :: ws => w ++ ' ' :: spaceJoin ws

/-- `' '.join(topic.split())` — the whitespace normalisation of step 5 of
`_validate_topic`. -/
def normWS (l : List Char) : List Char :=
  spaceJoin (pySplit l)

/-- `listStartsWith p l` : the literal pattern `p` matches at the head of
`l`. -/
def listStartsWith : List Char → List Char → Bool
  | [], _ => true
  | _ :: _, [] => false
  | p :: ps, c :: cs => p = c && listStartsWith ps cs

/-- `re.search` skeleton: does the at-position matcher `m` accept some
suffix of the haystack?  (None of the compiled patterns matches the empty
string, so the empty suffix need not be tried.) -/
def anySuffix (m : List Char → Bool) : List Char → Bool
  | [] => false
  | c :: rest => m (c :: rest) || anySuffix m rest

/-- Literal part of the pattern `<script[^>]*>` (lower-cased). -/
def scriptPat : List Char := "<script".toList

/-- At-position matcher of `<script[^>]*>`: after the literal `<script`,
`[^>]*` greedily consumes non-`>` characters, so the pattern matches here
iff a `>` occurs at or after offset 7. -/
def matchScriptAt (l : List Char) : Bool :=
  listStartsWith scriptPat l && (l.drop 7).any (fun c => c = '>')

/-- Literal pattern `javascript:` (lower-cased). -/
def jsPat : List Char := "javascript:".toList

/-- At-position matcher of `javascript:`. -/
def matchJsAt (l : List Char) : Bool :=
  listStartsWith jsPat l

/-- At-position matcher of `on\w+\s*=` (event-handler attributes): `on`,
then a non-empty maximal run of word characters, then optional whitespace,
then `=`.  (Maximal-munch is equivalent to the backtracking semantics here
because `\w`, `\s` and `=` are pairwise disjoint character sets.) -/
def matchHandlerAt (l : List Char) : Bool :=
  match l with
  | c1 :: c2 :: rest =>
    c1 = 'o' && c2 = 'n' && !(rest.takeWhile isWordChar).isEmpty &&
      (match (rest.dropWhile isWordChar).dropWhile pyIsSpace with
       | c3 :: _ => c3 = '='
       | [] => false)
  | _ => false

/-- At-position matcher of `(--|;)\s*KW` for a keyword `KW` (the SQL
mutation patterns, lower-cased): a `--` or `;` separator, optional
whitespace, then the keyword. -/
def matchSqlAt (kw : List Char) (l : List Char) : Bool :=
  match l with
  | c1 :: rest1 =>
    if c1 = '-' then
      match rest1 with
      | c2 :: rest2 => c2 = '-' && listStartsWith kw (rest2.dropWhile pyIsSpace)
      | [] => false
    else if c1 = ';' then
      listStartsWith kw (rest1.dropWhile pyIsSpace)
    else false
  | [] => false

/-- The fixed denylist `SUSPICIOUS_PATTERNS` of `topic_validation.py`, in
source order, each entry compiled to an `re.search`-style scanner over the
lower-cased haystack. -/
def SUSPICIOUS_PATTERNS : List (List Char → Bool) :=
  [ anySuffix matchScriptAt
  , anySuffix matchJsAt
  , anySuffix matchHandlerAt
  , anySuffix (matchSqlAt "drop".toList)
  , anySuffix (matchSqlAt "delete".toList)
  , anySuffix (matchSqlAt "insert".toList)
  , anySuffix (matchSqlAt "update".toList) ]

/-- `re.search(INVALID_CHARS_PATTERN, t)` with `INVALID_CHARS_PATTERN =
[<>{}]`. -/
def hasInvalidChars (l : List Char) : Bool :=
  l.any fun c => c = '<' || c = '>' || c = '\x7b' || c = '\x7d'

/-- Does any entry of `SUSPICIOUS_PATTERNS` match (case-insensitively)
somewhere in `l`?  Step 4 of `_validate_topic`. -/
def hasSuspicious (l : List Char) : Bool :=
  SUSPICIOUS_PATTERNS.any fun m => m (l.map Char.toLower)

/-- The exception classes of `src/exceptions.py`, plus the Python built-in
classes that are not part of the project hierarchy. -/
inductive ErrClass where
  | AIAgentsError
  | ConfigurationError
  | APIKeyError
  | ModelError
  | ToolError
  | ResearchError
  | ValidationError
  | FileOperationError
  | NetworkError
  | AgentExecutionError
  | ValueError
  | TypeError
  | RuntimeError
  deriving DecidableEq

/-- `isinstance(e, AIAgentsError)`: true exactly for the classes of the
project hierarchy of `src/exceptions.py`. -/
def isAIAgentsError : ErrClass → Bool
  | .ValueError => false
  | .TypeError => false
  | .RuntimeError => false
  | _ => true

/-- A raised Python exception: its class, its message, and its
`__cause__` (flattened to class and message; no deeper chains occur in the
embedded code). -/
structure PyException where
  cls : ErrClass
  message : String
  cause : Option (ErrClass × String)
  deriving DecidableEq

/-- `MIN_TOPIC_LENGTH` of `topic_validation.py`. -/
def MIN_TOPIC_LENGTH : Nat := 3

/-- `MAX_TOPIC_LENGTH` of `topic_validation.py`. -/
def MAX_TOPIC_LENGTH : Nat := 500

/-- Message of the emptiness rejection (step 1). -/
def emptyMsg : String := "Тема не може бути порожньою"

/-- Message of the too-short rejection (step 2, f-string instantiated with
`MIN_TOPIC_LENGTH = 3`). -/
def tooShortMsg : String := "Тема занадто коротка (мінімум 3 символів)"

/-- Message of the too-long rejection (step 2, f-string instantiated with
`MAX_TOPIC_LENGTH = 500`). -/
def tooLongMsg : String := "Тема занадто довга (максимум 500 символів)"

/-- Message of the forbidden-characters rejection (step 3). -/
def forbiddenMsg : String := "Тема містить заборонені символи: < > \x7b \x7d"

/-- Message of the suspicious-content rejection (step 4). -/
def suspiciousMsg : String := "Тема містить підозрілий контент"

/-- `_validate_topic` of `src/topic_validation.py`: validate and sanitize a
topic.  Every rejection raises `ResearchError(message)`. -/
def _validate_topic (topic : String) : Except PyException String :=
  if topic.data.isEmpty || (pyStrip topic.data).isEmpty then
    .error ⟨.ResearchError, emptyMsg, none⟩
  else
    let t := pyStrip topic.data
    if t.length < MIN_TOPIC_LENGTH then
      .error ⟨.ResearchError, tooShortMsg, none⟩
    else if t.length > MAX_TOPIC_LENGTH then
      .error ⟨.ResearchError, tooLongMsg, none⟩
    else if hasInvalidChars t then
      .error ⟨.ResearchError, forbiddenMsg, none⟩
    else if hasSuspicious t then
      .error ⟨.ResearchError, suspiciousMsg, none⟩
    else
      .ok ⟨normWS t⟩

/-- The five validation rules, named as in the specification. -/
inductive TopicRule where
  | empty
  | tooShort
  | tooLong
  | forbiddenChars
  | suspiciousContent
  deriving DecidableEq

/-- Does the trimmed topic `t` violate rule `r`?  Each rule is stated
independently, following the specification's wording (the character and
pattern denylists are the fixed lists shared with the implementation). -/
def ruleViolated (r : TopicRule) (t : List Char) : Bool :=
  match r with
  | .empty => t.isEmpty
  | .tooShort => t.length < 3
  | .tooLong => 500 < t.length
  | .forbiddenChars => hasInvalidChars t
  | .suspiciousContent => hasSuspicious t

/-- The fixed check order stated by the specification:
emptiness → length-short → length-long → forbidden characters →
suspicious patterns. -/
def specOrder : List TopicRule :=
  [.empty, .tooShort, .tooLong, .forbiddenChars, .suspiciousContent]

/-- First rule of the specification order violated by the trimmed topic. -/
def firstViolated (t : List Char) : Option TopicRule :=
  specOrder.find? (fun r => ruleViolated r t)

/-- The error the implementation reports for each rule. -/
def errOfRule : TopicRule → PyException
  | .empty => ⟨.ResearchError, emptyMsg, none⟩
  | .tooShort => ⟨.ResearchError, tooShortMsg, none⟩
  | .tooLong => ⟨.ResearchError, tooLongMsg, none⟩
  | .forbiddenChars => ⟨.ResearchError, forbiddenMsg, none⟩
  | .suspiciousContent => ⟨.ResearchError, suspiciousMsg, none⟩

/-- The validator as the specification words it: trim, report the first
violated rule of the fixed order, otherwise return the trimmed string with
whitespace runs collapsed. -/
def validateSpec (topic : String) : Except PyException String :=
  let t := pyStrip topic.data
  match firstViolated t with
  | some r => .error (errOfRule r)
  | none => .ok ⟨normWS t⟩

/-- Configuration of `retry_on_error` (the spec's RetryPolicy): maximum
retries, initial delay, backoff multiplier, and the `exceptions` tuple as
the set of classes it covers (`isinstance` test).  `log_retries` only
affects logging, which is not modelled. -/
structure RetryPolicy where
  max_retries : Nat
  delay : ℚ
  backoff : ℚ
  exceptions : ErrClass → Bool

/-- Observable outcome of one execution of a retry-wrapped operation: the
final result, how many times the operation was invoked, and the sleep
durations in order. -/
structure RetryResult (α : Type) where
  result : Except PyException α
  attempts : Nat
  sleeps : List ℚ

/-- The `for attempt in range(max_retries + 1)` loop of `retry_on_error`.
`attempt` is the current 0-based attempt index and `remaining` the number
of loop iterations still allowed after this one (`max_retries - attempt`);
`cur` is `current_delay` and `acc` the sleeps so far, reversed. -/
def retryLoop {α : Type} (trig : ErrClass → Bool) (backoff : ℚ)
    (op : Nat → Except PyException α) :
    Nat → Nat → ℚ → List ℚ → RetryResult α
  | attempt, remaining, cur, acc =>
    match op attempt with
    | .ok a => ⟨.ok a, attempt + 1, acc.reverse⟩
    | .error e =>
      if trig e.cls then
        match remaining with
        | r + 1 => retryLoop trig backoff op (attempt + 1) r (cur * backoff) (cur :: acc)
        | 0 => ⟨.error e, attempt + 1, acc.reverse⟩
      else
        ⟨.error e, attempt + 1, acc.reverse⟩

/-- `retry_on_error` of `src/error_handling.py`, applied to one call of the
wrapped function.  (The `if last_exception: raise` line after the loop is
unreachable: `range(max_retries + 1)` is never empty and every iteration
either returns or raises or continues.) -/
def retry_on_error {α : Type} (pol : RetryPolicy)
    (op : Nat → Except PyException α) : RetryResult α :=
  retryLoop pol.exceptions pol.backoff op 0 pol.max_retries pol.delay []

/-- `handle_errors` of `src/error_handling.py`, applied to the outcome of
one call of the wrapped function.  `log_traceback` only affects logging and
is not modelled. -/
def handle_errors {α : Type} (default_return : α) (raise_exception : Bool)
    (exception_type : Option ErrClass) (func_name : String)
    (outcome : Except PyException α) : Except PyException α :=
  match outcome with
  | .ok a => .ok a
  | .error e =>
    if isAIAgentsError e.cls then
      if raise_exception then .error e else .ok default_return
    else
      match exception_type with
      | some cls =>
        .error ⟨cls, "Unexpected error in " ++ func_name ++ ": " ++ e.message,
                some (e.cls, e.message)⟩
      | none =>
        if raise_exception then .error e else .ok default_return

/-- Character-level view of the whitespace normalisation used in proofs:
a whitespace run becomes a single space (skipped entirely when the
previous emitted character already closed a run, i.e. when the flag is
`true`); on lists with no trailing whitespace it coincides with
`' '.join(l.split())`. -/
def collapseAux : Bool → List Char → List Char
  | _, [] => []
  | prevWs, c :: rest =>
    if pyIsSpace c then
      if prevWs then collapseAux true rest else ' ' :: collapseAux true rest
    else
      c :: collapseAux false rest

/-- No leading and no trailing whitespace. -/
def noEdgeWS (l : List Char) : Bool :=
  (match l.head? with | some c => !pyIsSpace c | none => true) &&
  (match l.getLast? with | some c => !pyIsSpace c | none => true)

/-- No two adjacent whitespace characters (whitespace runs have length 1). -/
def noAdjacentWS : List Char → Bool
  | a :: c :: rest => !(pyIsSpace a && pyIsSpace c) && noAdjacentWS (c :: rest)
  | _ => true

/-- Every whitespace character is a plain space. -/
def wsIsSpace (l : List Char) : Bool :=
  l.all fun c => !pyIsSpace c || c = ' '

/-- Retry fixture: a policy with `max_retries = 2` that retries on every
class. -/
def alwaysRetryPol : RetryPolicy := ⟨2, 1, 2, fun _ => true⟩

/-- Retry fixture: an operation that raises `NetworkError` on every call. -/
def alwaysFailOp : Nat → Except PyException Nat :=
  fun _ => .error ⟨.NetworkError, "timeout", none⟩

/-- Retry fixture: a policy with `max_retries = 3`. -/
def retryPol3 : RetryPolicy := ⟨3, 1, 2, fun _ => true⟩

/-- Retry fixture: an operation that succeeds immediately. -/
def alwaysOkOp : Nat → Except PyException Nat :=
  fun _ => .ok 5

/-! ## Retry wrapper lemmas and claims -/

theorem retryLoop_allFail {α : Type} (trig : ErrClass → Bool) (b : ℚ)
    (op : Nat → Except PyException α)
    (h : ∀ n, ∃ e, op n = .error e ∧ trig e.cls = true) :
    ∀ remaining attempt cur acc,
      (retryLoop trig b op attempt remaining cur acc).result = op (attempt + remaining) ∧
      (retryLoop trig b op attempt remaining cur acc).attempts = attempt + remaining + 1 := by
  intro remaining
  induction remaining with
  | zero =>
    intro attempt cur acc
    obtain ⟨e, he, ht⟩ := h attempt
    rw [retryLoop, he]
    simp [ht, he]
  | succ r ih =>
    intro attempt cur acc
    obtain ⟨e, he, ht⟩ := h attempt
    rw [retryLoop, he]
    simp only [ht, if_true]
    constructor
    · have h1 := (ih (attempt + 1) (cur * b) (cur :: acc)).1
      rw [h1]
      congr 1
      omega
    · have h2 := (ih (attempt + 1) (cur * b) (cur :: acc)).2
      rw [h2]
      omega

/-- C3: an operation that raises a triggering error on every call is
executed exactly `max_retries + 1` times and the error of the last call is
propagated unchanged. -/
theorem retry_exhausts_and_propagates_last {α : Type} (pol : RetryPolicy)
    (op : Nat → Except PyException α)
    (h : ∀ n, ∃ e, op n = .error e ∧ pol.exceptions e.cls = true) :
    (retry_on_error pol op).attempts = pol.max_retries + 1 ∧
    (retry_on_error pol op).result = op pol.max_retries := by
  have hh := retryLoop_allFail pol.exceptions pol.backoff op h pol.max_retries 0 pol.delay []
  rw [retry_on_error]
  exact ⟨by rw [hh.2]; omega, by rw [hh.1]; congr 1; omega⟩

/-- C3 witness: the always-failing `NetworkError` operation under the
`max_retries = 2` policy runs 3 times and propagates the timeout error. -/
theorem retry_exhausts_and_propagates_last_witness :
    (retry_on_error alwaysRetryPol alwaysFailOp).attempts = alwaysRetryPol.max_retries + 1 ∧
    (retry_on_error alwaysRetryPol alwaysFailOp).result = alwaysFailOp alwaysRetryPol.max_retries :=
  retry_exhausts_and_propagates_last alwaysRetryPol alwaysFailOp
    (fun _ => ⟨⟨.NetworkError, "timeout", none⟩, rfl, rfl⟩)

theorem retryLoop_sleeps_shape {α : Type} (trig : ErrClass → Bool) (b : ℚ)
    (op : Nat → Except PyException α) :
    ∀ remaining attempt cur acc,
      ∃ k, (retryLoop trig b op attempt remaining cur acc).sleeps
          = acc.reverse ++ (List.range k).map (fun i => cur * b ^ i) := by
  intro remaining
  induction remaining with
  | zero =>
    intro attempt cur acc
    refine ⟨0, ?_⟩
    rw [retryLoop]
    cases hop : op attempt with
    | ok a => simp
    | error e => by_cases ht : trig e.cls <;> simp [ht]
  | succ r ih =>
    intro attempt cur acc
    rw [retryLoop]
    cases hop : op attempt with
    | ok a => exact ⟨0, by simp⟩
    | error e =>
      by_cases ht : trig e.cls
      · simp only [ht, if_true]
        obtain ⟨k, hk⟩ := ih (attempt + 1) (cur * b) (cur :: acc)
        refine ⟨k + 1, ?_⟩
        rw [hk]
        have hmap : (List.range k).map (fun i => cur * b * b ^ i)
            = (List.range k).map (fun i => cur * b ^ (i + 1)) := by
          apply List.map_congr_left
          intro i _
          ring
        rw [hmap, List.range_succ_eq_map, List.map_cons, List.map_map]
        simp only [List.reverse_cons, List.append_assoc, List.cons_append,
          List.nil_append, pow_zero, mul_one]
        rfl
      · exact ⟨0, by simp [ht]⟩

/-- C8: in every execution the recorded sleep sequence is exponential —
the i-th sleep (0-based) equals `delay * backoff ^ i`, so the first sleep
is the initial delay and each later sleep is the previous one times the
backoff factor — and an operation that succeeds on its first attempt
causes no sleep at all. -/
theorem retry_backoff_sequence {α : Type} (pol : RetryPolicy)
    (op : Nat → Except PyException α) :
    ((retry_on_error pol op).sleeps
        = (List.range (retry_on_error pol op).sleeps.length).map
            (fun i => pol.delay * pol.backoff ^ i)) ∧
    (∀ a, op 0 = .ok a → (retry_on_error pol op).sleeps = []) := by
  constructor
  · obtain ⟨k, hk⟩ :=
      retryLoop_sleeps_shape pol.exceptions pol.backoff op pol.max_retries 0 pol.delay []
    rw [retry_on_error, hk]
    simp
  · intro a ha
    rw [retry_on_error, retryLoop, ha]
    simp

/-- C8 witness: an operation succeeding on the first attempt sleeps
nowhere. -/
theorem retry_backoff_sequence_witness :
    (retry_on_error retryPol3 alwaysOkOp).sleeps = [] :=
  (retry_backoff_sequence retryPol3 alwaysOkOp).2 5 rfl

/-! ## handle_errors claims -/

/-- C10: with `raise_exception = False`, `handle_errors` swallows project
errors (`AIAgentsError` subclasses) into `default_return`, but any other
exception is re-raised wrapped in `exception_type` whenever one is
configured. -/
theorem handle_errors_asymmetry {α : Type} (d : α) (ex : Option ErrClass)
    (fname : String) (e : PyException) :
    (isAIAgentsError e.cls = true →
      handle_errors d false ex fname (.error e) = .ok d) ∧
    (∀ cls, isAIAgentsError e.cls = false → ex = some cls →
      handle_errors d false ex fname (.error e)
        = .error ⟨cls, "Unexpected error in " ++ fname ++ ": " ++ e.message,
                  some (e.cls, e.message)⟩) := by
  constructor
  · intro hA
    simp [handle_errors, hA]
  · intro cls hA hex
    simp [handle_errors, hA, hex]

/-- C10 witness: a raised `ValueError` under `raise_exception = False` with
`exception_type = ToolError` is re-raised as a `ToolError` with the
original as cause, not swallowed. -/
theorem handle_errors_asymmetry_witness :
    isAIAgentsError (ErrClass.ValueError) = false ∧
    handle_errors (7 : Nat) false (some .ToolError) "f"
        (.error ⟨.ValueError, "boom", none⟩)
      = .error ⟨.ToolError, "Unexpected error in " ++ "f" ++ ": " ++ "boom",
                some (.ValueError, "boom")⟩ :=
  ⟨by decide,
   (handle_errors_asymmetry (7 : Nat) (some .ToolError) "f"
      ⟨.ValueError, "boom", none⟩).2 .ToolError (by decide) rfl⟩

/-! ## Concrete validator claims -/

/-- C1 counterexample: the input `"DROP TABLE users; -- AI"` passes
validation unchanged — in particular it does not fail with the
suspicious-content error — because its `DROP` keyword is not preceded by a
`--` or `;` separator as the denylist patterns require. -/
theorem validate_drop_tail_comment_passes :
    _validate_topic "DROP TABLE users; -- AI" = .ok "DROP TABLE users; -- AI" ∧
    _validate_topic "DROP TABLE users; -- AI"
      ≠ .error ⟨.ResearchError, suspiciousMsg, none⟩ := by
  constructor <;> decide

/-- C1 (amended): for the input `"AI; DROP TABLE users"` (which passes the
emptiness, length and forbidden-character checks, and where `DROP` follows
the `;` separator), validate fails with the suspicious-content error. -/
theorem validate_semicolon_drop_suspicious :
    _validate_topic "AI; DROP TABLE users"
      = .error ⟨.ResearchError, suspiciousMsg, none⟩ := by
  decide

/-! ## Strip lemmas -/

theorem mem_dropWhile_of_not {p : Char → Bool} {c : Char} {l : List Char}
    (hc : p c = false) (h : c ∈ l) : c ∈ l.dropWhile p := by
  have hsplit := List.takeWhile_append_dropWhile p l
  rw [← hsplit] at h
  rcases List.mem_append.1 h with h1 | h2
  · have := List.mem_takeWhile_imp h1
    rw [hc] at this
    cases this
  · exact h2

theorem mem_pyStrip {c : Char} {l : List Char}
    (hc : pyIsSpace c = false) (h : c ∈ l) : c ∈ pyStrip l := by
  unfold pyStrip pyStripLeft pyStripRight
  apply mem_dropWhile_of_not hc
  rw [List.mem_reverse]
  exact mem_dropWhile_of_not hc (List.mem_reverse.2 h)

theorem dropWhile_head_false {p : Char → Bool} {l : List Char} {c : Char}
    {t : List Char} (h : l.dropWhile p = c :: t) : p c = false := by
  have := List.head?_dropWhile_not p l
  rw [h] at this
  exact this

theorem pyStrip_head_not_space {l c t} (h : pyStrip l = c :: t) :
    pyIsSpace c = false :=
  dropWhile_head_false h

theorem pyStrip_getLast_not_space {l : List Char} {c : Char}
    (h : (pyStrip l).getLast? = some c) : pyIsSpace c = false := by
  unfold pyStrip pyStripLeft at h
  obtain ⟨u, hu⟩ := List.dropWhile_suffix (l := pyStripRight l) (p := pyIsSpace)
  have hm : (pyStripRight l).getLast? = some c := by
    rw [← hu, List.getLast?_append, h]
    rfl
  unfold pyStripRight at hm
  rw [List.getLast?_eq_head?_reverse, List.reverse_reverse] at hm
  have := List.head?_dropWhile_not pyIsSpace l.reverse
  rw [hm] at this
  exact this

theorem dropWhile_eq_self_of_head {p : Char → Bool} {l : List Char}
    (h : ∀ c t, l = c :: t → p c = false) : l.dropWhile p = l := by
  cases l with
  | nil => rfl
  | cons c t => rw [List.dropWhile_cons_of_neg (by rw [h c t rfl]; exact Bool.false_ne_true)]

theorem pyStrip_eq_self {l : List Char}
    (hh : ∀ c t, l = c :: t → pyIsSpace c = false)
    (hl : ∀ c, l.getLast? = some c → pyIsSpace c = false) : pyStrip l = l := by
  unfold pyStrip pyStripRight pyStripLeft
  have h1 : l.reverse.dropWhile pyIsSpace = l.reverse := by
    apply dropWhile_eq_self_of_head
    intro c t hct
    apply hl
    rw [List.getLast?_eq_head?_reverse, hct]
    rfl
  rw [h1, List.reverse_reverse]
  exact dropWhile_eq_self_of_head hh

theorem pyStrip_nil : pyStrip [] = [] := rfl

/-! ## Error taxonomy claims -/

/-- C2 counterexample: the rejection of the empty topic is raised as a
`ResearchError`, which is a different class from `ValidationError`. -/
theorem validate_error_class_research_not_validation :
    _validate_topic "" = .error ⟨.ResearchError, emptyMsg, none⟩ ∧
    ErrClass.ResearchError ≠ ErrClass.ValidationError := by
  constructor <;> decide

/-- C2 (amended): every rejection by the validator is a `ResearchError`
with no cause and one of five fixed messages, one per violated rule
(empty, too-short, too-long, forbidden characters, suspicious content);
no other error is ever raised. -/
theorem validate_errors_research_fixed_messages :
    ∀ s e, _validate_topic s = .error e →
      e.cls = ErrClass.ResearchError ∧ e.cause = none ∧
      (e.message = emptyMsg ∨ e.message = tooShortMsg ∨ e.message = tooLongMsg ∨
       e.message = forbiddenMsg ∨ e.message = suspiciousMsg) := by
  intro s e h
  unfold _validate_topic at h
  dsimp only at h
  split_ifs at h <;> cases h <;> simp

/-- C2 witness: instantiated at the empty string. -/
theorem validate_errors_research_fixed_messages_witness :
    _validate_topic "" = .error ⟨.ResearchError, emptyMsg, none⟩ ∧
    ((⟨.ResearchError, emptyMsg, none⟩ : PyException).cls = ErrClass.ResearchError ∧
     (⟨.ResearchError, emptyMsg, none⟩ : PyException).cause = none ∧
     ((⟨.ResearchError, emptyMsg, none⟩ : PyException).message = emptyMsg ∨
      (⟨.ResearchError, emptyMsg, none⟩ : PyException).message = tooShortMsg ∨
      (⟨.ResearchError, emptyMsg, none⟩ : PyException).message = tooLongMsg ∨
      (⟨.ResearchError, emptyMsg, none⟩ : PyException).message = forbiddenMsg ∨
      (⟨.ResearchError, emptyMsg, none⟩ : PyException).message = suspiciousMsg)) :=
  ⟨by decide,
   validate_errors_research_fixed_messages "" ⟨.ResearchError, emptyMsg, none⟩ (by decide)⟩

/-! ## Check-order refinement and length/forbidden-character claims -/

theorem validate_matches_spec : ∀ s, _validate_topic s = validateSpec s := by
  intro s
  by_cases hL : s.data = []
  · unfold _validate_topic validateSpec firstViolated specOrder
    rw [hL]
    rfl
  · have h0 : s.data.isEmpty = false := by
      cases h : s.data with
      | nil => exact absurd h hL
      | cons a t => rfl
    unfold _validate_topic validateSpec firstViolated specOrder
    dsimp only
    rw [h0, Bool.false_or]
    by_cases h1 : (pyStrip s.data).isEmpty
    · simp [h1, List.find?, ruleViolated, errOfRule]
    · by_cases h2 : (pyStrip s.data).length < 3
      · simp [h1, h2, List.find?, ruleViolated, errOfRule, MIN_TOPIC_LENGTH]
      · by_cases h3 : (pyStrip s.data).length > 500
        · simp [h1, h2, h3, List.find?, ruleViolated, errOfRule,
            MIN_TOPIC_LENGTH, MAX_TOPIC_LENGTH]
        · by_cases h4 : hasInvalidChars (pyStrip s.data)
          · simp [h1, h2, h3, h4, List.find?, ruleViolated, errOfRule,
              MIN_TOPIC_LENGTH, MAX_TOPIC_LENGTH]
          · by_cases h5 : hasSuspicious (pyStrip s.data)
            · simp [h1, h2, h3, h4, h5, List.find?, ruleViolated, errOfRule,
                MIN_TOPIC_LENGTH, MAX_TOPIC_LENGTH]
            · simp [h1, h2, h3, h4, h5, List.find?, ruleViolated, errOfRule,
                MIN_TOPIC_LENGTH, MAX_TOPIC_LENGTH]

/-- C4: the validator applies its checks in the fixed order emptiness,
too-short, too-long, forbidden characters, suspicious patterns, then
whitespace normalisation, reporting the error of the first violated rule
(it coincides with `validateSpec`, the first-violated-rule composition of
independently stated rules in the specification's order); in particular
`"<script>alert(1)</script> AI"` is rejected with the forbidden-characters
error, not the suspicious-content error. -/
theorem validate_check_order :
    ∀ s, (_validate_topic s = validateSpec s) ∧
      _validate_topic "<script>alert(1)</script> AI"
        = .error ⟨.ResearchError, forbiddenMsg, none⟩ ∧
      _validate_topic "<script>alert(1)</script> AI"
        ≠ .error ⟨.ResearchError, suspiciousMsg, none⟩ :=
  fun s => ⟨validate_matches_spec s, by decide, by decide⟩

theorem strip_isEmpty_false {s : String} (hne : pyStrip s.data ≠ []) :
    (pyStrip s.data).isEmpty = false := by
  cases h : pyStrip s.data with
  | nil => exact absurd h hne
  | cons a t => rfl

theorem validateSpec_short {s : String} (hne : pyStrip s.data ≠ [])
    (h : (pyStrip s.data).length < 3) :
    _validate_topic s = .error ⟨.ResearchError, tooShortMsg, none⟩ := by
  rw [validate_matches_spec]
  unfold validateSpec firstViolated specOrder
  simp [strip_isEmpty_false hne, h, List.find?, ruleViolated, errOfRule]

theorem validateSpec_long {s : String} (h : 500 < (pyStrip s.data).length) :
    _validate_topic s = .error ⟨.ResearchError, tooLongMsg, none⟩ := by
  have hne : pyStrip s.data ≠ [] := by
    intro hh
    rw [hh] at h
    simp at h
  rw [validate_matches_spec]
  unfold validateSpec firstViolated specOrder
  have hn3 : ¬((pyStrip s.data).length < 3) := by omega
  simp [strip_isEmpty_false hne, h, hn3, List.find?, ruleViolated, errOfRule]

theorem validateSpec_forbidden {s : String}
    (hinv : hasInvalidChars (pyStrip s.data) = true)
    (hb1 : 3 ≤ (pyStrip s.data).length) (hb2 : (pyStrip s.data).length ≤ 500) :
    _validate_topic s = .error ⟨.ResearchError, forbiddenMsg, none⟩ := by
  have hne : pyStrip s.data ≠ [] := by
    intro hh
    rw [hh] at hb1
    simp at hb1
  rw [validate_matches_spec]
  unfold validateSpec firstViolated specOrder
  simp [strip_isEmpty_false hne, Nat.not_lt.2 hb1, Nat.not_lt.2 hb2, hinv,
    List.find?, ruleViolated, errOfRule]

/-- C9: the length bounds are inclusive — a non-empty trimmed topic of
length below 3 is rejected as too short, one of length above 500 as too
long, one of trimmed length between 3 and 500 inclusive is never rejected
for length, and the exactly-3-character `"AI!"` passes. -/
theorem validate_length_inclusive_bounds : ∀ s : String,
    ((pyStrip s.data ≠ [] → (pyStrip s.data).length < 3 →
        _validate_topic s = .error ⟨.ResearchError, tooShortMsg, none⟩) ∧
     ((pyStrip s.data).length > 500 →
        _validate_topic s = .error ⟨.ResearchError, tooLongMsg, none⟩) ∧
     (3 ≤ (pyStrip s.data).length → (pyStrip s.data).length ≤ 500 →
        _validate_topic s ≠ .error ⟨.ResearchError, tooShortMsg, none⟩ ∧
        _validate_topic s ≠ .error ⟨.ResearchError, tooLongMsg, none⟩)) ∧
    _validate_topic "AI!" = .ok "AI!" := by
  intro s
  refine ⟨⟨fun hne h => validateSpec_short hne h, fun h => validateSpec_long h, ?_⟩, by decide⟩
  intro hb1 hb2
  have hne : pyStrip s.data ≠ [] := by
    intro hh
    rw [hh] at hb1
    simp at hb1
  rw [validate_matches_spec]
  unfold validateSpec firstViolated specOrder
  have hn3 : ¬((pyStrip s.data).length < 3) := by omega
  have hn5 : ¬(500 < (pyStrip s.data).length) := by omega
  by_cases h4 : hasInvalidChars (pyStrip s.data) <;>
    by_cases h5 : hasSuspicious (pyStrip s.data) <;>
      simp [strip_isEmpty_false hne, hn3, hn5, h4, h5, List.find?, ruleViolated, errOfRule,
        PyException.mk.injEq] <;>
        decide

/-- C9 witness: `"ab"` has non-empty trimmed form of length 2 and is
rejected as too short. -/
theorem validate_length_inclusive_bounds_witness :
    pyStrip (String.data "ab") ≠ [] ∧ (pyStrip (String.data "ab")).length < 3 ∧
    _validate_topic "ab" = .error ⟨.ResearchError, tooShortMsg, none⟩ :=
  ⟨by decide, by decide,
   (validate_length_inclusive_bounds "ab").1.1 (by decide) (by decide)⟩

/-- C5 counterexample: `"<"` contains a forbidden character but is
rejected with the too-short error, not the forbidden-characters error
(the length checks run before the forbidden-character check). -/
theorem validate_lone_angle_too_short :
    _validate_topic "<" = .error ⟨.ResearchError, tooShortMsg, none⟩ ∧
    (⟨.ResearchError, tooShortMsg, none⟩ : PyException)
      ≠ ⟨.ResearchError, forbiddenMsg, none⟩ := by
  constructor <;> decide

/-- C5 (amended): every string containing one of `<`, `>`, `{`, `}` fails
validation — never with the emptiness error, since the forbidden character
survives trimming — and whenever its trimmed length lies within the
inclusive bounds 3..500 the reported error is exactly the
forbidden-characters error; outside those bounds the corresponding length
error is reported instead. -/
theorem validate_forbidden_always_fails : ∀ s : String,
    hasInvalidChars s.data = true →
    (∃ e, _validate_topic s = .error e) ∧
    _validate_topic s ≠ .error ⟨.ResearchError, emptyMsg, none⟩ ∧
    (3 ≤ (pyStrip s.data).length → (pyStrip s.data).length ≤ 500 →
      _validate_topic s = .error ⟨.ResearchError, forbiddenMsg, none⟩) := by
  intro s h
  obtain ⟨c, hcmem, hcval⟩ := List.any_eq_true.1 h
  have hcns : pyIsSpace c = false := by
    have hcval' := hcval
    simp only [Bool.or_eq_true, decide_eq_true_eq] at hcval'
    rcases hcval' with ((h' | h') | h') | h' <;> subst h' <;> decide
  have hct : c ∈ pyStrip s.data := mem_pyStrip hcns hcmem
  have hinv : hasInvalidChars (pyStrip s.data) = true :=
    List.any_eq_true.2 ⟨c, hct, hcval⟩
  have hne : pyStrip s.data ≠ [] := fun hh => List.not_mem_nil c (hh ▸ hct)
  refine ⟨?_, ?_, fun hb1 hb2 => validateSpec_forbidden hinv hb1 hb2⟩
  · rcases Nat.lt_or_ge (pyStrip s.data).length 3 with h2 | h2
    · exact ⟨_, validateSpec_short hne h2⟩
    · rcases Nat.lt_or_ge 500 (pyStrip s.data).length with h3 | h3
      · exact ⟨_, validateSpec_long h3⟩
      · exact ⟨_, validateSpec_forbidden hinv h2 h3⟩
  · rcases Nat.lt_or_ge (pyStrip s.data).length 3 with h2 | h2
    · rw [validateSpec_short hne h2]
      decide
    · rcases Nat.lt_or_ge 500 (pyStrip s.data).length with h3 | h3
      · rw [validateSpec_long h3]
        decide
      · rw [validateSpec_forbidden hinv h2 h3]
        decide

/-- C5 witness: `"<>{}"` (written with escaped braces) consists solely of
forbidden characters, has trimmed length 4, and is rejected with the
forbidden-characters error — not the emptiness error. -/
theorem validate_forbidden_always_fails_witness :
    hasInvalidChars (String.data "<>\x7b\x7d") = true ∧
    _validate_topic "<>\x7b\x7d" = .error ⟨.ResearchError, forbiddenMsg, none⟩ :=
  ⟨by decide,
   (validate_forbidden_always_fails "<>\x7b\x7d" (by decide)).2.2 (by decide) (by decide)⟩

/-! ## Whitespace-normalisation invariants and idempotence -/

theorem splitAux_cons_ne_nil : ∀ (l : List Char) (c : Char) (acc : List Char),
    splitAux l (c :: acc) ≠ [] := by
  intro l
  induction l with
  | nil => intro c acc; simp [splitAux]
  | cons x rest ih =>
    intro c acc
    by_cases hx : pyIsSpace x <;> simp [splitAux, hx]
    exact ih x (c :: acc)

theorem splitAux_ne_nil_of_mem {l : List Char} {x : Char}
    (hx : x ∈ l) (hxs : pyIsSpace x = false) : splitAux l [] ≠ [] := by
  induction l with
  | nil => cases hx
  | cons a rest ih =>
    by_cases ha : pyIsSpace a
    · simp only [splitAux, ha, if_true, List.isEmpty_nil]
      rcases List.mem_cons.1 hx with rfl | hmem
      · rw [ha] at hxs; cases hxs
      · exact ih hmem
    · simp only [splitAux, ha, if_false, Bool.false_eq_true]
      exact splitAux_cons_ne_nil rest a []

theorem spaceJoin_cons {w : List Char} {ws : List (List Char)} (h : ws ≠ []) :
    spaceJoin (w :: ws) = w ++ ' ' :: spaceJoin ws := by
  cases ws with
  | nil => exact absurd rfl h
  | cons a t => rfl

theorem spaceJoin_splitAux : ∀ l : List Char,
    (∀ x, l.getLast? = some x → pyIsSpace x = false) →
    (∀ c acc, spaceJoin (splitAux l (c :: acc)) = (c :: acc).reverse ++ collapseAux false l) ∧
    spaceJoin (splitAux l []) = collapseAux true l := by
  intro l
  induction l with
  | nil =>
    intro _
    constructor
    · intro c acc
      simp [splitAux, spaceJoin, collapseAux]
    · rfl
  | cons x rest ih =>
    intro hl
    have hrest : ∀ y, rest.getLast? = some y → pyIsSpace y = false := by
      intro y hy
      apply hl
      cases rest with
      | nil => cases hy
      | cons a t => rw [List.getLast?_cons_cons]; exact hy
    obtain ⟨ih1, ih2⟩ := ih hrest
    by_cases hx : pyIsSpace x
    · have hrne : rest ≠ [] := by
        intro hh
        subst hh
        have := hl x rfl
        rw [hx] at this
        cases this
    -- rest is nonempty and its last element is not whitespace
      obtain ⟨y, hy⟩ : ∃ y, rest.getLast? = some y := by
        cases h : rest.getLast? with
        | none => exact absurd (List.getLast?_eq_none_iff.1 h) hrne
        | some y => exact ⟨y, rfl⟩
      have hym : y ∈ rest := List.mem_of_getLast?_eq_some hy
      have hyns : pyIsSpace y = false := hrest y hy
      have hsne : splitAux rest [] ≠ [] := splitAux_ne_nil_of_mem hym hyns
      constructor
      · intro c acc
        have hstep : splitAux (x :: rest) (c :: acc)
            = (c :: acc).reverse :: splitAux rest [] := by
          simp [splitAux, hx]
        rw [hstep, spaceJoin_cons hsne, ih2]
        simp [collapseAux, hx]
      · have hstep : splitAux (x :: rest) [] = splitAux rest [] := by
          simp [splitAux, hx]
        rw [hstep, ih2]
        simp [collapseAux, hx]
    · constructor
      · intro c acc
        have hstep : splitAux (x :: rest) (c :: acc) = splitAux rest (x :: c :: acc) := by
          simp [splitAux, hx]
        rw [hstep, ih1 x (c :: acc)]
        simp [collapseAux, hx, List.append_assoc]
      · have hstep : splitAux (x :: rest) [] = splitAux rest [x] := by
          simp [splitAux, hx]
        rw [hstep, ih1 x []]
        simp [collapseAux, hx]

theorem normWS_eq_collapse {l : List Char}
    (hl : ∀ x, l.getLast? = some x → pyIsSpace x = false) :
    normWS l = collapseAux true l := by
  rw [normWS, pySplit]
  exact (spaceJoin_splitAux l hl).2

theorem collapseAux_true_eq_false {l : List Char}
    (h : ∀ c t, l = c :: t → pyIsSpace c = false) :
    collapseAux true l = collapseAux false l := by
  cases l with
  | nil => rfl
  | cons c t => simp [collapseAux, h c t rfl]

theorem mem_collapseAux {c : Char} :
    ∀ {l : List Char} {b : Bool}, c ∈ collapseAux b l →
      c = ' ' ∨ (c ∈ l ∧ pyIsSpace c = false) := by
  intro l
  induction l with
  | nil => intro b h; simp [collapseAux] at h
  | cons x rest ih =>
    intro b h
    by_cases hx : pyIsSpace x
    · cases b with
      | true =>
        simp only [collapseAux, hx, if_true] at h
        rcases ih h with h' | ⟨hm, hns⟩
        · exact Or.inl h'
        · exact Or.inr ⟨List.mem_cons_of_mem x hm, hns⟩
      | false =>
        simp only [collapseAux, hx, if_true, if_false] at h
        rcases List.mem_cons.1 h with rfl | h'
        · exact Or.inl rfl
        · rcases ih h' with h'' | ⟨hm, hns⟩
          · exact Or.inl h''
          · exact Or.inr ⟨List.mem_cons_of_mem x hm, hns⟩
    · simp only [collapseAux, hx, if_false, Bool.false_eq_true] at h
      rcases List.mem_cons.1 h with rfl | h'
      · exact Or.inr ⟨List.mem_cons_self c rest, Bool.eq_false_iff.2 hx⟩
      · rcases ih h' with h'' | ⟨hm, hns⟩
        · exact Or.inl h''
        · exact Or.inr ⟨List.mem_cons_of_mem x hm, hns⟩

theorem collapseAux_length_le : ∀ (l : List Char) (b : Bool),
    (collapseAux b l).length ≤ l.length := by
  intro l
  induction l with
  | nil => intro b; simp [collapseAux]
  | cons x rest ih =>
    intro b
    by_cases hx : pyIsSpace x
    · cases b with
      | true =>
        simp only [collapseAux, hx, if_true]
        exact Nat.le_trans (ih true) (Nat.le_succ _)
      | false =>
        simp only [collapseAux, hx, if_true, if_false, List.length_cons]
        exact Nat.succ_le_succ (ih true)
    · simp only [collapseAux, hx, if_false, Bool.false_eq_true, List.length_cons]
      exact Nat.succ_le_succ (ih false)

theorem collapseAux_ne_nil {l : List Char} {x : Char}
    (hx : x ∈ l) (hxs : pyIsSpace x = false) :
    ∀ b, collapseAux b l ≠ [] := by
  induction l with
  | nil => cases hx
  | cons a rest ih =>
    intro b
    by_cases ha : pyIsSpace a
    · have hxr : x ∈ rest := by
        rcases List.mem_cons.1 hx with rfl | h'
        · rw [ha] at hxs; cases hxs
        · exact h'
      cases b with
      | true =>
        simp only [collapseAux, ha, if_true]
        exact ih hxr true
      | false => simp [collapseAux, ha]
    · simp [collapseAux, ha]

theorem collapseAux_true_head :
    ∀ {l : List Char} {c : Char} {t : List Char},
      collapseAux true l = c :: t → pyIsSpace c = false := by
  intro l
  induction l with
  | nil => intro c t h; cases h
  | cons x rest ih =>
    intro c t h
    by_cases hx : pyIsSpace x
    · simp only [collapseAux, hx, if_true] at h
      exact ih h
    · simp only [collapseAux, hx, if_false, Bool.false_eq_true] at h
      cases h
      exact Bool.eq_false_iff.2 hx

theorem collapseAux_length_min3 : ∀ l : List Char,
    (∀ c t, l = c :: t → pyIsSpace c = false) →
    (∀ x, l.getLast? = some x → pyIsSpace x = false) →
    min 3 l.length ≤ (collapseAux false l).length := by
  intro l
  induction l with
  | nil => intro _ _; simp [collapseAux]
  | cons c rest ih =>
    intro hh hl
    have hc : pyIsSpace c = false := hh c rest rfl
    have hstep : collapseAux false (c :: rest) = c :: collapseAux false rest := by
      simp [collapseAux, hc]
    rw [hstep]
    cases rest with
    | nil => simp [collapseAux]
    | cons d rest2 =>
      have hlast2 : ∀ x, (d :: rest2).getLast? = some x → pyIsSpace x = false := by
        intro x hx
        exact hl x (by rw [List.getLast?_cons_cons]; exact hx)
      by_cases hd : pyIsSpace d
      · have hr2ne : rest2 ≠ [] := by
          intro hh2
          subst hh2
          have := hlast2 d rfl
          rw [hd] at this
          cases this
        obtain ⟨y, hy⟩ : ∃ y, rest2.getLast? = some y := by
          cases h : rest2.getLast? with
          | none => exact absurd (List.getLast?_eq_none_iff.1 h) hr2ne
          | some y => exact ⟨y, rfl⟩
        have hym : y ∈ rest2 := List.mem_of_getLast?_eq_some hy
        have hyns : pyIsSpace y = false := by
          apply hlast2
          cases rest2 with
          | nil => exact absurd rfl hr2ne
          | cons e r3 => rw [List.getLast?_cons_cons]; exact hy
        have h2 : collapseAux false (d :: rest2) = ' ' :: collapseAux true rest2 := by
          simp [collapseAux, hd]
        have hne2 : collapseAux true rest2 ≠ [] := collapseAux_ne_nil hym hyns true
        have hpos : 1 ≤ (collapseAux true rest2).length := by
          cases h3 : collapseAux true rest2 with
          | nil => exact absurd h3 hne2
          | cons a t => simp
        rw [h2]
        simp only [List.length_cons]
        omega
      · have hdd : ∀ c' t', (d :: rest2) = c' :: t' → pyIsSpace c' = false := by
          intro c' t' h'
          cases h'
          exact Bool.eq_false_iff.2 hd
        have := ih hdd hlast2
        simp only [List.length_cons] at *
        omega

theorem collapseAux_noAdjacent : ∀ (l : List Char) (b : Bool),
    noAdjacentWS (collapseAux b l) = true := by
  intro l
  induction l with
  | nil => intro b; simp [collapseAux, noAdjacentWS]
  | cons x rest ih =>
    intro b
    by_cases hx : pyIsSpace x
    · cases b with
      | true =>
        simp only [collapseAux, hx, if_true]
        exact ih true
      | false =>
        simp only [collapseAux, hx, if_true, if_false]
        cases hX : collapseAux true rest with
        | nil => simp [noAdjacentWS]
        | cons c t =>
          have hc := collapseAux_true_head hX
          have htail := ih true
          rw [hX] at htail
          simp [noAdjacentWS, hc, htail]
    · have hstep : collapseAux b (x :: rest) = x :: collapseAux false rest := by
        simp [collapseAux, hx]
      rw [hstep]
      cases hX : collapseAux false rest with
      | nil => simp [noAdjacentWS]
      | cons c t =>
        have htail := ih false
        rw [hX] at htail
        simp [noAdjacentWS, Bool.eq_false_iff.2 hx, htail]

theorem collapseAux_wsIsSpace : ∀ (l : List Char) (b : Bool),
    wsIsSpace (collapseAux b l) = true := by
  intro l b
  rw [wsIsSpace, List.all_eq_true]
  intro c hc
  rcases mem_collapseAux hc with rfl | ⟨_, hns⟩
  · simp
  · simp [hns]

theorem collapseAux_getLast : ∀ (l : List Char),
    (∀ x, l.getLast? = some x → pyIsSpace x = false) →
    ∀ (b : Bool) (x : Char), (collapseAux b l).getLast? = some x → pyIsSpace x = false := by
  intro l
  induction l with
  | nil => intro _ b x h; cases h
  | cons c rest ih =>
    intro hl b x h
    have hrest : ∀ y, rest.getLast? = some y → pyIsSpace y = false := by
      intro y hy
      apply hl
      cases rest with
      | nil => cases hy
      | cons a t => rw [List.getLast?_cons_cons]; exact hy
    by_cases hc : pyIsSpace c
    · have hrne : rest ≠ [] := by
        intro hh
        subst hh
        have := hl c rfl
        rw [hc] at this
        cases this
      obtain ⟨y, hy⟩ : ∃ y, rest.getLast? = some y := by
        cases h' : rest.getLast? with
        | none => exact absurd (List.getLast?_eq_none_iff.1 h') hrne
        | some y => exact ⟨y, rfl⟩
      have hym : y ∈ rest := List.mem_of_getLast?_eq_some hy
      have hyns : pyIsSpace y = false := hrest y hy
      have hXne : collapseAux true rest ≠ [] := collapseAux_ne_nil hym hyns true
      cases b with
      | true =>
        simp only [collapseAux, hc, if_true] at h
        exact ih hrest true x h
      | false =>
        have hstep : collapseAux false (c :: rest) = ' ' :: collapseAux true rest := by
          simp [collapseAux, hc]
        rw [hstep] at h
        cases hX : collapseAux true rest with
        | nil => exact absurd hX hXne
        | cons a t =>
          rw [hX, List.getLast?_cons_cons] at h
          exact ih hrest true x (by rw [hX]; exact h)
    · have hstep : collapseAux b (c :: rest) = c :: collapseAux false rest := by
        simp [collapseAux, hc]
      rw [hstep] at h
      cases rest with
      | nil =>
        simp [collapseAux] at h
        subst h
        exact Bool.eq_false_iff.2 hc
      | cons d rest2 =>
        obtain ⟨y, hy⟩ : ∃ y, (d :: rest2).getLast? = some y := by
          cases h' : (d :: rest2).getLast? with
          | none => exact absurd (List.getLast?_eq_none_iff.1 h') (by simp)
          | some y => exact ⟨y, rfl⟩
        have hym : y ∈ d :: rest2 := List.mem_of_getLast?_eq_some hy
        have hyns : pyIsSpace y = false := hrest y hy
        have hXne : collapseAux false (d :: rest2) ≠ [] := collapseAux_ne_nil hym hyns false
        cases hX : collapseAux false (d :: rest2) with
        | nil => exact absurd hX hXne
        | cons a t =>
          rw [hX, List.getLast?_cons_cons] at h
          exact ih hrest false x (by rw [hX]; exact h)

theorem collapseAux_id : ∀ l : List Char,
    wsIsSpace l = true → noAdjacentWS l = true →
    (∀ x, l.getLast? = some x → pyIsSpace x = false) →
    collapseAux false l = l := by
  intro l
  induction l with
  | nil => intro _ _ _; rfl
  | cons c rest ih =>
    intro hws hadj hlast
    have hrest : ∀ y, rest.getLast? = some y → pyIsSpace y = false := by
      intro y hy
      apply hlast
      cases rest with
      | nil => cases hy
      | cons a t => rw [List.getLast?_cons_cons]; exact hy
    have hwsr : wsIsSpace rest = true := by
      rw [wsIsSpace, List.all_eq_true]
      intro z hz
      exact List.all_eq_true.1 hws z (List.mem_cons_of_mem c hz)
    have hadjr : noAdjacentWS rest = true := by
      cases rest with
      | nil => rfl
      | cons d r2 =>
        simp only [noAdjacentWS, Bool.and_eq_true] at hadj
        exact hadj.2
    by_cases hc : pyIsSpace c
    · -- c is whitespace, hence c = ' ' and the next char is not whitespace
      have hceq : c = ' ' := by
        have := List.all_eq_true.1 hws c (List.mem_cons_self c rest)
        simp [hc] at this
        exact this
      cases rest with
      | nil =>
        exfalso
        have := hlast c rfl
        rw [hc] at this
        cases this
      | cons d r2 =>
        have hd : pyIsSpace d = false := by
          simp only [noAdjacentWS, Bool.and_eq_true, Bool.not_eq_true'] at hadj
          rcases Bool.and_eq_false_iff.1 hadj.1 with h' | h'
          · rw [hc] at h'; cases h'
          · exact h'
        have hstep : collapseAux false (c :: d :: r2) = ' ' :: collapseAux true (d :: r2) := by
          simp [collapseAux, hc]
        rw [hstep, hceq]
        have hflag : collapseAux true (d :: r2) = collapseAux false (d :: r2) := by
          simp [collapseAux, hd]
        rw [hflag, ih hwsr hadjr hrest]
    · have hstep : collapseAux false (c :: rest) = c :: collapseAux false rest := by
        simp [collapseAux, hc]
      rw [hstep, ih hwsr hadjr hrest]

theorem pyIsSpace_toNat_le {x : Char} (h : pyIsSpace x = true) : x.toNat ≤ 32 := by
  simp only [pyIsSpace, Bool.or_eq_true, decide_eq_true_eq] at h
  rcases h with ((((h | h) | h) | h) | h) | h <;> subst h <;> decide

theorem pyIsSpace_toLower (c : Char) : pyIsSpace (Char.toLower c) = pyIsSpace c := by
  by_cases h : pyIsSpace c
  · simp only [pyIsSpace, Bool.or_eq_true, decide_eq_true_eq] at h
    rcases h with ((((h | h) | h) | h) | h) | h <;> subst h <;> decide
  · have h' : pyIsSpace c = false := Bool.eq_false_iff.2 h
    rw [h']
    unfold Char.toLower
    dsimp only
    split
    next hcond =>
      have hvalid : (c.toNat + 32).isValidChar := Or.inl (by omega)
      have hval : (Char.ofNat (c.toNat + 32)).toNat = c.toNat + 32 := by
        unfold Char.ofNat
        rw [dif_pos hvalid]
        rfl
      cases hps : pyIsSpace (Char.ofNat (c.toNat + 32)) with
      | false => rfl
      | true =>
        have := pyIsSpace_toNat_le hps
        rw [hval] at this
        omega
    next => exact h'

theorem map_toLower_collapseAux : ∀ (l : List Char) (b : Bool),
    (collapseAux b l).map Char.toLower = collapseAux b (l.map Char.toLower) := by
  intro l
  induction l with
  | nil => intro b; rfl
  | cons x rest ih =>
    intro b
    have hsp : Char.toLower ' ' = ' ' := rfl
    by_cases hx : pyIsSpace x
    · have hx' : pyIsSpace (Char.toLower x) = true := by rw [pyIsSpace_toLower]; exact hx
      cases b with
      | true => simp [collapseAux, hx, hx', ih]
      | false => simp [collapseAux, hx, hx', ih, hsp]
    · have hx' : pyIsSpace (Char.toLower x) = false := by rw [pyIsSpace_toLower]; exact Bool.eq_false_iff.2 hx
      simp [collapseAux, hx, hx', ih]

theorem isWordChar_not_space {c : Char} (h : isWordChar c = true) :
    pyIsSpace c = false := by
  cases hps : pyIsSpace c with
  | false => rfl
  | true =>
    exfalso
    simp only [pyIsSpace, Bool.or_eq_true, decide_eq_true_eq] at hps
    rcases hps with ((((h' | h') | h') | h') | h') | h' <;> subst h' <;> simp [isWordChar] at h

theorem listStartsWith_ex {p l : List Char} (h : listStartsWith p l = true) :
    ∃ v, l = p ++ v := by
  induction p generalizing l with
  | nil => exact ⟨l, rfl⟩
  | cons a ps ih =>
    cases l with
    | nil => cases h
    | cons c cs =>
      simp only [listStartsWith, Bool.and_eq_true, decide_eq_true_eq] at h
      obtain ⟨rfl, h2⟩ := h
      obtain ⟨v, rfl⟩ := ih h2
      exact ⟨v, rfl⟩

theorem listStartsWith_collapse : ∀ (p : List Char),
    (∀ c ∈ p, pyIsSpace c = false) →
    ∀ u : List Char, listStartsWith p (collapseAux false u) = true →
      listStartsWith p u = true := by
  intro p
  induction p with
  | nil => intro _ u _; rfl
  | cons a ps ih =>
    intro hp u h
    cases u with
    | nil => simp [collapseAux, listStartsWith] at h
    | cons x u' =>
      by_cases hx : pyIsSpace x
      · exfalso
        have hstep : collapseAux false (x :: u') = ' ' :: collapseAux true u' := by
          simp [collapseAux, hx]
        rw [hstep] at h
        simp only [listStartsWith, Bool.and_eq_true, decide_eq_true_eq] at h
        have := hp a (List.mem_cons_self a ps)
        rw [h.1] at this
        cases this
      · have hstep : collapseAux false (x :: u') = x :: collapseAux false u' := by
          simp [collapseAux, hx]
        rw [hstep] at h
        simp only [listStartsWith, Bool.and_eq_true, decide_eq_true_eq] at h ⊢
        exact ⟨h.1, ih (fun c hc => hp c (List.mem_cons_of_mem a hc)) u' h.2⟩

theorem collapseAux_append_nonws : ∀ (w v : List Char),
    (∀ c ∈ w, pyIsSpace c = false) →
    collapseAux false (w ++ v) = w ++ collapseAux false v := by
  intro w
  induction w with
  | nil => intro v _; rfl
  | cons a w' ih =>
    intro v hw
    have ha : pyIsSpace a = false := hw a (List.mem_cons_self a w')
    simp only [List.cons_append]
    have hstep : collapseAux false (a :: (w' ++ v)) = a :: collapseAux false (w' ++ v) := by
      simp [collapseAux, ha]
    rw [hstep, ih v (fun c hc => hw c (List.mem_cons_of_mem a hc))]

theorem dropWhile_space_collapse : ∀ (u : List Char) (b : Bool) (kw : List Char),
    kw ≠ [] → (∀ c ∈ kw, pyIsSpace c = false) →
    listStartsWith kw ((collapseAux b u).dropWhile pyIsSpace) = true →
    listStartsWith kw (u.dropWhile pyIsSpace) = true := by
  intro u
  induction u with
  | nil =>
    intro b kw hne _ h
    cases kw with
    | nil => exact absurd rfl hne
    | cons a ps => cases h
  | cons x u' ih =>
    intro b kw hne hkw h
    by_cases hx : pyIsSpace x
    · have hrw : (collapseAux b (x :: u')).dropWhile pyIsSpace
          = (collapseAux true u').dropWhile pyIsSpace := by
        cases b with
        | true => simp [collapseAux, hx]
        | false =>
          have hstep : collapseAux false (x :: u') = ' ' :: collapseAux true u' := by
            simp [collapseAux, hx]
          rw [hstep, List.dropWhile_cons_of_pos (by decide)]
      rw [hrw] at h
      rw [List.dropWhile_cons_of_pos hx]
      exact ih true kw hne hkw h
    · have hstep : collapseAux b (x :: u') = x :: collapseAux false u' := by
        simp [collapseAux, hx]
      rw [hstep, List.dropWhile_cons_of_neg (by rw [Bool.eq_false_iff.2 hx]; exact Bool.false_ne_true)] at h
      rw [List.dropWhile_cons_of_neg (by rw [Bool.eq_false_iff.2 hx]; exact Bool.false_ne_true)]
      have hcoll : x :: collapseAux false u' = collapseAux false (x :: u') := by
        simp [collapseAux, hx]
      rw [hcoll] at h
      exact listStartsWith_collapse kw hkw (x :: u') h

theorem anySuffix_of_ne_nil (m : List Char → Bool) (u : List Char)
    (h : m u = true) (hne : u ≠ []) : anySuffix m u = true := by
  cases u with
  | nil => exact absurd rfl hne
  | cons c t => simp [anySuffix, h]

theorem listStartsWith_refl_append : ∀ (p v : List Char),
    listStartsWith p (p ++ v) = true := by
  intro p v
  induction p with
  | nil => rfl
  | cons a ps ih => simp [listStartsWith, ih]

theorem matchScriptAt_space (X : List Char) : matchScriptAt (' ' :: X) = false := rfl

theorem matchJsAt_space (X : List Char) : matchJsAt (' ' :: X) = false := rfl

theorem matchSqlAt_space (kw X : List Char) : matchSqlAt kw (' ' :: X) = false := rfl

theorem matchHandlerAt_space (X : List Char) : matchHandlerAt (' ' :: X) = false := by
  cases X <;> rfl

theorem anySuffix_collapse_false {m : List Char → Bool}
    (hAt : ∀ u, m (collapseAux false u) = true → anySuffix m u = true)
    (hSpace : ∀ X, m (' ' :: X) = false) :
    ∀ (l : List Char) (b : Bool),
      anySuffix m l = false → anySuffix m (collapseAux b l) = false := by
  intro l
  induction l with
  | nil => intro b h; simp [collapseAux, anySuffix]
  | cons x rest ih =>
    intro b h
    have h0 := h
    rw [anySuffix] at h
    have hb := Bool.or_eq_false_iff.1 h
    by_cases hx : pyIsSpace x
    · cases b with
      | true =>
        have hstep : collapseAux true (x :: rest) = collapseAux true rest := by
          simp [collapseAux, hx]
        rw [hstep]
        exact ih true hb.2
      | false =>
        have hstep : collapseAux false (x :: rest) = ' ' :: collapseAux true rest := by
          simp [collapseAux, hx]
        rw [hstep, anySuffix, hSpace, Bool.false_or]
        exact ih true hb.2
    · have hstep : collapseAux b (x :: rest) = x :: collapseAux false rest := by
        simp [collapseAux, hx]
      rw [hstep, anySuffix, Bool.or_eq_false_iff]
      refine ⟨?_, ih false hb.2⟩
      cases hm : m (x :: collapseAux false rest) with
      | false => rfl
      | true =>
        exfalso
        have hx2 : x :: collapseAux false rest = collapseAux false (x :: rest) := by
          simp [collapseAux, hx]
        rw [hx2] at hm
        have hsuf := hAt (x :: rest) hm
        rw [h0] at hsuf
        cases hsuf

theorem matchJsAt_collapse : ∀ u, matchJsAt (collapseAux false u) = true →
    anySuffix matchJsAt u = true := by
  intro u h
  rw [matchJsAt] at h
  have hkw : ∀ c ∈ jsPat, pyIsSpace c = false := by decide
  have h' : listStartsWith jsPat u = true := listStartsWith_collapse jsPat hkw u h
  refine anySuffix_of_ne_nil _ _ ?_ ?_
  · rw [matchJsAt]
    exact h'
  · obtain ⟨v, rfl⟩ := listStartsWith_ex h'
    simp [jsPat]

theorem matchScriptAt_collapse : ∀ u, matchScriptAt (collapseAux false u) = true →
    anySuffix matchScriptAt u = true := by
  intro u h
  rw [matchScriptAt, Bool.and_eq_true] at h
  obtain ⟨h1, h2⟩ := h
  have hkw : ∀ c ∈ scriptPat, pyIsSpace c = false := by decide
  have h1' := listStartsWith_collapse scriptPat hkw u h1
  obtain ⟨v, rfl⟩ := listStartsWith_ex h1'
  rw [collapseAux_append_nonws scriptPat v hkw] at h2
  rw [List.drop_left' (by decide : scriptPat.length = 7)] at h2
  obtain ⟨ch, hchmem, hcheq⟩ := List.any_eq_true.1 h2
  have hch : ch = '>' := by simpa using hcheq
  subst hch
  have hchv : '>' ∈ v := by
    rcases mem_collapseAux hchmem with h' | ⟨hm, _⟩
    · exact absurd h' (by decide)
    · exact hm
  have hm : matchScriptAt (scriptPat ++ v) = true := by
    rw [matchScriptAt, Bool.and_eq_true]
    refine ⟨listStartsWith_refl_append scriptPat v, ?_⟩
    rw [List.drop_left' (by decide : scriptPat.length = 7)]
    exact List.any_eq_true.2 ⟨'>', hchv, by decide⟩
  exact anySuffix_of_ne_nil _ _ hm (by simp [scriptPat])

theorem matchSqlAt_collapse (kw : List Char) (hne : kw ≠ [])
    (hkw : ∀ c ∈ kw, pyIsSpace c = false) :
    ∀ u, matchSqlAt kw (collapseAux false u) = true →
      anySuffix (matchSqlAt kw) u = true := by
  intro u h
  cases u with
  | nil => simp [collapseAux, matchSqlAt] at h
  | cons x u' =>
    by_cases hx : pyIsSpace x
    · exfalso
      have hstep : collapseAux false (x :: u') = ' ' :: collapseAux true u' := by
        simp [collapseAux, hx]
      rw [hstep, matchSqlAt_space] at h
      cases h
    · have hstep : collapseAux false (x :: u') = x :: collapseAux false u' := by
        simp [collapseAux, hx]
      rw [hstep] at h
      simp only [matchSqlAt] at h
      by_cases hdash : x = '-'
      · subst hdash
        rw [if_pos rfl] at h
        cases u' with
        | nil => simp [collapseAux] at h
        | cons y u'' =>
          by_cases hy : pyIsSpace y
          · exfalso
            have hstep2 : collapseAux false (y :: u'') = ' ' :: collapseAux true u'' := by
              simp [collapseAux, hy]
            rw [hstep2] at h
            simp at h
          · have hstep2 : collapseAux false (y :: u'') = y :: collapseAux false u'' := by
              simp [collapseAux, hy]
            rw [hstep2] at h
            simp only [Bool.and_eq_true, decide_eq_true_eq] at h
            obtain ⟨rfl, h2⟩ := h
            have h2' := dropWhile_space_collapse u'' false kw hne hkw h2
            have hm : matchSqlAt kw ('-' :: '-' :: u'') = true := by
              simp [matchSqlAt, h2']
            exact anySuffix_of_ne_nil _ _ hm (by simp)
      · by_cases hsemi : x = ';'
        · subst hsemi
          rw [if_neg (by decide), if_pos rfl] at h
          have h' := dropWhile_space_collapse u' false kw hne hkw h
          have hm : matchSqlAt kw (';' :: u') = true := by
            simp [matchSqlAt, h']
          exact anySuffix_of_ne_nil _ _ hm (by simp)
        · rw [if_neg hdash, if_neg hsemi] at h
          cases h

theorem takeWhile_word_collapse : ∀ r : List Char,
    (∀ z t, r = z :: t → isWordChar z = false) →
    (collapseAux false r).takeWhile isWordChar = [] ∧
    (collapseAux false r).dropWhile isWordChar = collapseAux false r := by
  intro r hr
  cases r with
  | nil => exact ⟨rfl, rfl⟩
  | cons z t =>
    by_cases hz : pyIsSpace z
    · have hstep : collapseAux false (z :: t) = ' ' :: collapseAux true t := by
        simp [collapseAux, hz]
      rw [hstep]
      constructor
      · rw [List.takeWhile_cons_of_neg (by decide)]
      · rw [List.dropWhile_cons_of_neg (by decide)]
    · have hstep : collapseAux false (z :: t) = z :: collapseAux false t := by
        simp [collapseAux, hz]
      have hzw : isWordChar z = false := hr z t rfl
      rw [hstep]
      constructor
      · rw [List.takeWhile_cons_of_neg (by rw [hzw]; exact Bool.false_ne_true)]
      · rw [List.dropWhile_cons_of_neg (by rw [hzw]; exact Bool.false_ne_true)]

theorem matchHandlerAt_collapse : ∀ u, matchHandlerAt (collapseAux false u) = true →
    anySuffix matchHandlerAt u = true := by
  intro u h
  cases u with
  | nil => simp [collapseAux, matchHandlerAt] at h
  | cons x u' =>
    by_cases hx : pyIsSpace x
    · exfalso
      have hstep : collapseAux false (x :: u') = ' ' :: collapseAux true u' := by
        simp [collapseAux, hx]
      rw [hstep, matchHandlerAt_space] at h
      cases h
    · have hstep : collapseAux false (x :: u') = x :: collapseAux false u' := by
        simp [collapseAux, hx]
      rw [hstep] at h
      cases u' with
      | nil => simp [collapseAux, matchHandlerAt] at h
      | cons y u'' =>
        by_cases hy : pyIsSpace y
        · exfalso
          have hstep2 : collapseAux false (y :: u'') = ' ' :: collapseAux true u'' := by
            simp [collapseAux, hy]
          rw [hstep2] at h
          simp [matchHandlerAt] at h
        · have hstep2 : collapseAux false (y :: u'') = y :: collapseAux false u'' := by
            simp [collapseAux, hy]
          rw [hstep2] at h
          simp only [matchHandlerAt, Bool.and_eq_true, decide_eq_true_eq] at h
          obtain ⟨⟨⟨rfl, rfl⟩, h3⟩, h4⟩ := h
          set w := u''.takeWhile isWordChar with hw
          set r := u''.dropWhile isWordChar with hrdef
          have hsplit : w ++ r = u'' := List.takeWhile_append_dropWhile isWordChar u''
          have hwword : ∀ c ∈ w, isWordChar c = true := fun c hc => List.mem_takeWhile_imp hc
          have hwns : ∀ c ∈ w, pyIsSpace c = false :=
            fun c hc => isWordChar_not_space (hwword c hc)
          have hColl : collapseAux false u'' = w ++ collapseAux false r := by
            rw [← hsplit]
            exact collapseAux_append_nonws w r hwns
          have hrhead : ∀ z t, r = z :: t → isWordChar z = false := by
            intro z t hzt
            exact dropWhile_head_false (p := isWordChar) hzt
          obtain ⟨htw, hdw⟩ := takeWhile_word_collapse r hrhead
          have h1 : (collapseAux false u'').takeWhile isWordChar = w := by
            rw [hColl, List.takeWhile_append_of_pos hwword, htw, List.append_nil]
          have h2 : (collapseAux false u'').dropWhile isWordChar = collapseAux false r := by
            rw [hColl, List.dropWhile_append_of_pos hwword, hdw]
          rw [h1] at h3
          rw [h2] at h4
          -- transfer the trailing `\s*=` test back to r
          have h4' : listStartsWith ['='] ((collapseAux false r).dropWhile pyIsSpace) = true := by
            cases hL : (collapseAux false r).dropWhile pyIsSpace with
            | nil => rw [hL] at h4; cases h4
            | cons c3 t3 =>
              rw [hL] at h4
              have hc3 : c3 = '=' := by simpa using h4
              subst hc3
              simp [listStartsWith]
          have h4'' := dropWhile_space_collapse r false ['='] (by simp) (by decide) h4'
          have hm : matchHandlerAt ('o' :: 'n' :: u'') = true := by
            simp only [matchHandlerAt, Bool.and_eq_true, decide_eq_true_eq]
            refine ⟨⟨⟨trivial, trivial⟩, ?_⟩, ?_⟩
            · rw [← hw]; exact h3
            · rw [← hrdef]
              cases hL : r.dropWhile pyIsSpace with
              | nil => rw [hL] at h4''; cases h4''
              | cons c3 t3 =>
                rw [hL] at h4''
                have hc3 : c3 = '=' := by
                  simp only [listStartsWith, Bool.and_eq_true, decide_eq_true_eq] at h4''
                  exact h4''.1.symm
                subst hc3
                simp
          exact anySuffix_of_ne_nil _ _ hm (by simp)

theorem hasSuspicious_collapse {t : List Char}
    (hlast : ∀ x, t.getLast? = some x → pyIsSpace x = false)
    (h : hasSuspicious t = false) :
    hasSuspicious (normWS t) = false := by
  rw [normWS_eq_collapse hlast]
  rw [hasSuspicious] at h ⊢
  rw [map_toLower_collapseAux]
  simp only [SUSPICIOUS_PATTERNS, List.any_cons, List.any_nil,
    Bool.or_eq_false_iff] at h ⊢
  obtain ⟨h1, h2, h3, h4, h5, h6, h7, _⟩ := h
  refine ⟨?_, ?_, ?_, ?_, ?_, ?_, ?_, trivial⟩
  · exact anySuffix_collapse_false matchScriptAt_collapse matchScriptAt_space _ true h1
  · exact anySuffix_collapse_false matchJsAt_collapse matchJsAt_space _ true h2
  · exact anySuffix_collapse_false matchHandlerAt_collapse matchHandlerAt_space _ true h3
  · exact anySuffix_collapse_false
      (matchSqlAt_collapse "drop".toList (by decide) (by decide))
      (matchSqlAt_space "drop".toList) _ true h4
  · exact anySuffix_collapse_false
      (matchSqlAt_collapse "delete".toList (by decide) (by decide))
      (matchSqlAt_space "delete".toList) _ true h5
  · exact anySuffix_collapse_false
      (matchSqlAt_collapse "insert".toList (by decide) (by decide))
      (matchSqlAt_space "insert".toList) _ true h6
  · exact anySuffix_collapse_false
      (matchSqlAt_collapse "update".toList (by decide) (by decide))
      (matchSqlAt_space "update".toList) _ true h7

theorem validate_ok_core : ∀ (s r : String),
    _validate_topic s = .ok r →
    r.data = normWS (pyStrip s.data) ∧
    pyStrip s.data ≠ [] ∧
    3 ≤ (pyStrip s.data).length ∧ (pyStrip s.data).length ≤ 500 ∧
    hasInvalidChars (pyStrip s.data) = false ∧
    hasSuspicious (pyStrip s.data) = false := by
  intro s r h
  unfold _validate_topic at h
  dsimp only at h
  split_ifs at h with h1 h2 h3 h4 h5
  cases h
  have h1' : (s.data.isEmpty || (pyStrip s.data).isEmpty) = false := Bool.eq_false_iff.2 h1
  have hne : pyStrip s.data ≠ [] := by
    intro hh
    have hh2 : (pyStrip s.data).isEmpty = true := by rw [hh]; rfl
    rw [hh2, Bool.or_true] at h1'
    cases h1'
  have h2' : ¬((pyStrip s.data).length < 3) := h2
  have h3' : ¬((pyStrip s.data).length > 500) := h3
  refine ⟨rfl, hne, by omega, by omega, Bool.eq_false_iff.2 h4, Bool.eq_false_iff.2 h5⟩

theorem validate_ok_invariants : ∀ (s r : String),
    _validate_topic s = .ok r →
    r.data ≠ [] ∧
    3 ≤ r.data.length ∧ r.data.length ≤ 500 ∧
    hasInvalidChars r.data = false ∧
    hasSuspicious r.data = false ∧
    noEdgeWS r.data = true ∧
    noAdjacentWS r.data = true ∧
    wsIsSpace r.data = true := by
  intro s r h
  obtain ⟨hr, hne, hl1, hl2, hinv, hsus⟩ := validate_ok_core s r h
  have hh : ∀ c t', pyStrip s.data = c :: t' → pyIsSpace c = false := by
    intro c t' hct
    exact pyStrip_head_not_space hct
  have hl : ∀ x, (pyStrip s.data).getLast? = some x → pyIsSpace x = false := by
    intro x hx
    exact pyStrip_getLast_not_space hx
  have hcoll : r.data = collapseAux true (pyStrip s.data) := by
    rw [hr, normWS_eq_collapse hl]
  have hflag : collapseAux true (pyStrip s.data) = collapseAux false (pyStrip s.data) :=
    collapseAux_true_eq_false hh
  obtain ⟨c0, t0, hct⟩ : ∃ c0 t0, pyStrip s.data = c0 :: t0 := by
    cases ht : pyStrip s.data with
    | nil => exact absurd ht hne
    | cons a b => exact ⟨a, b, rfl⟩
  have hc0 : pyIsSpace c0 = false := hh c0 t0 hct
  have hc0m : c0 ∈ pyStrip s.data := by rw [hct]; exact List.mem_cons_self _ _
  refine ⟨?_, ?_, ?_, ?_, ?_, ?_, ?_, ?_⟩
  · rw [hcoll]
    exact collapseAux_ne_nil hc0m hc0 true
  · rw [hcoll, hflag]
    have := collapseAux_length_min3 (pyStrip s.data) hh hl
    omega
  · rw [hcoll]
    have := collapseAux_length_le (pyStrip s.data) true
    omega
  · cases hic : hasInvalidChars r.data with
    | false => rfl
    | true =>
      exfalso
      obtain ⟨c, hcm, hcv⟩ := List.any_eq_true.1 hic
      rw [hcoll] at hcm
      rcases mem_collapseAux hcm with rfl | ⟨hm, _⟩
      · exact absurd hcv (by decide)
      · have hit : hasInvalidChars (pyStrip s.data) = true := List.any_eq_true.2 ⟨c, hm, hcv⟩
        rw [hit] at hinv
        cases hinv
  · rw [hr]
    exact hasSuspicious_collapse hl hsus
  · rw [noEdgeWS, Bool.and_eq_true]
    constructor
    · cases hrd : r.data with
      | nil => rfl
      | cons a b =>
        rw [hcoll] at hrd
        have := collapseAux_true_head hrd
        simp [this]
    · cases hrl : r.data.getLast? with
      | none => rfl
      | some x =>
        rw [hcoll] at hrl
        have := collapseAux_getLast (pyStrip s.data) hl true x hrl
        simp [this]
  · rw [hcoll]
    exact collapseAux_noAdjacent (pyStrip s.data) true
  · rw [hcoll]
    exact collapseAux_wsIsSpace (pyStrip s.data) true

theorem validate_normalized_fix : ∀ r : String,
    r.data ≠ [] →
    3 ≤ r.data.length → r.data.length ≤ 500 →
    hasInvalidChars r.data = false →
    hasSuspicious r.data = false →
    noEdgeWS r.data = true →
    noAdjacentWS r.data = true →
    wsIsSpace r.data = true →
    _validate_topic r = .ok r := by
  intro r hne hl1 hl2 hinv hsus hedge hadj hws
  rw [noEdgeWS, Bool.and_eq_true] at hedge
  obtain ⟨he1, he2⟩ := hedge
  have hh : ∀ c t, r.data = c :: t → pyIsSpace c = false := by
    intro c t hct
    rw [hct] at he1
    simp only [List.head?_cons] at he1
    simpa using he1
  have hl : ∀ c, r.data.getLast? = some c → pyIsSpace c = false := by
    intro c hc
    rw [hc] at he2
    simpa using he2
  have hstrip : pyStrip r.data = r.data := pyStrip_eq_self hh hl
  have hnorm : normWS r.data = r.data := by
    rw [normWS_eq_collapse hl, collapseAux_true_eq_false hh, collapseAux_id r.data hws hadj hl]
  have h0 : r.data.isEmpty = false := by
    cases hd : r.data with
    | nil => exact absurd hd hne
    | cons a b => rfl
  unfold _validate_topic
  dsimp only
  rw [hstrip]
  simp only [h0, Bool.false_or, MIN_TOPIC_LENGTH, MAX_TOPIC_LENGTH, hinv, hsus, hnorm,
    Bool.false_eq_true, if_false]
  rw [if_neg (by omega), if_neg (by omega)]

/-- C6: every successfully validated topic simultaneously satisfies all
post-validation invariants: non-empty, length within the inclusive bounds
3..500 (the whitespace collapse performed after the length check can
shorten the string but never below 3), no forbidden characters, no match
of any suspicious pattern, no leading or trailing whitespace, every
whitespace character a plain space and no two adjacent — and
`validate("  AI   in   education  ")` returns `"AI in education"`. -/
theorem validate_ok_postconditions :
    (∀ s r : String, _validate_topic s = .ok r →
      r.data ≠ [] ∧
      3 ≤ r.data.length ∧ r.data.length ≤ 500 ∧
      hasInvalidChars r.data = false ∧
      hasSuspicious r.data = false ∧
      noEdgeWS r.data = true ∧
      noAdjacentWS r.data = true ∧
      wsIsSpace r.data = true) ∧
    _validate_topic "  AI   in   education  " = .ok "AI in education" :=
  ⟨validate_ok_invariants, by decide⟩

/-- C6 witness: the invariants instantiated on the example output. -/
theorem validate_ok_postconditions_witness :
    _validate_topic "  AI   in   education  " = .ok "AI in education" ∧
    (String.data "AI in education" ≠ [] ∧
     3 ≤ (String.data "AI in education").length ∧
     (String.data "AI in education").length ≤ 500 ∧
     hasInvalidChars (String.data "AI in education") = false ∧
     hasSuspicious (String.data "AI in education") = false ∧
     noEdgeWS (String.data "AI in education") = true ∧
     noAdjacentWS (String.data "AI in education") = true ∧
     wsIsSpace (String.data "AI in education") = true) :=
  ⟨by decide, validate_ok_postconditions.1 "  AI   in   education  " "AI in education" (by decide)⟩

/-- C7: the validator is idempotent — re-validating any successful output
succeeds and returns the identical string, so
`validate(validate(s)) = validate(s)` and `validate` is the identity on
already-normalised strings. -/
theorem validate_idempotent :
    ∀ s r : String, _validate_topic s = .ok r → _validate_topic r = .ok r := by
  intro s r h
  obtain ⟨h1, h2, h3, h4, h5, h6, h7, h8⟩ := validate_ok_invariants s r h
  exact validate_normalized_fix r h1 h2 h3 h4 h5 h6 h7 h8

/-- C7 witness: re-validating `"AI in education"` returns it unchanged. -/
theorem validate_idempotent_witness :
    _validate_topic "  AI   in   education  " = .ok "AI in education" ∧
    _validate_topic "AI in education" = .ok "AI in education" :=
  ⟨by decide, validate_idempotent "  AI   in   education  " "AI in education" (by decide)⟩
